import Mathlib

/-!
Verification development for the per-frame color-separation detection pipeline
implemented in "Object detection using color separation/From picture.py".

The script reads frames from a capture device, converts BGR to HSV, thresholds
with `cv2.inRange` against trackbar-supplied bounds, extracts contours from the
binary mask, filters them by `cv2.contourArea(c) > minContourBar`, and for each
selected contour computes a minimum-area box, orders its corners with
`imutils.perspective.order_points`, and derives midpoints with `boxMidpoint`.

Modelling conventions:
* Pixel coordinates are `ℤ × ℤ`; channel values are `ℕ` (8-bit values are kept
  as naturals, every arithmetic step that the byte code performs is modelled
  with its exact integer semantics).
* Python `int(x * 0.5)` on an integer-valued float truncates toward zero: it is
  `Int.tdiv _ 2`.
* `cv2.findContours`, `cv2.minAreaRect`/`cv2.boxPoints` composed with the
  `dtype="int"` cast, and `cv2.drawContours` are opaque geometric collaborators
  of the per-frame pipeline; they are modelled as explicit function parameters
  (`findContours`, `rectOf`, `draw`) of the pipeline.  Everything the claims
  quantify over is embedded concretely.
-/

namespace ColorDetect

/-- Truncating halving of an integer: the value of Python `int(s * 0.5)` for an
integer `s` (truncation toward zero), as used by `midpoint` in the source. -/
def halfTrunc (s : ℤ) : ℤ := s.tdiv 2

/-- Midpoint of a segment with per-coordinate truncation toward zero.
Source: `From picture.py` lines 38-39,
`return ( int((a[0] + b[0]) * 0.5), int((a[1] + b[1]) * 0.5) )`. -/
def midpoint (a b : ℤ × ℤ) : ℤ × ℤ :=
  (halfTrunc (a.1 + b.1), halfTrunc (a.2 + b.2))

/-- Midpoint list of a contour box.  Source: `From picture.py` lines 42-47.
The input is the corner array produced by `perspective.order_points`
(top-left, top-right, bottom-right, bottom-left); `box.getD i (0, 0)` models
the indexing `box[i]`.  Note that line 45 of the source reads `box[2]`
(bottom-right) for the variable named `tlbl`, and that the function returns a
list of two points. -/
def boxMidpoint (box : List (ℤ × ℤ)) : List (ℤ × ℤ) :=
  let tltr := midpoint (box.getD 0 (0, 0)) (box.getD 1 (0, 0))
  let blbr := midpoint (box.getD 3 (0, 0)) (box.getD 2 (0, 0))
  let tlbl := midpoint (box.getD 0 (0, 0)) (box.getD 2 (0, 0))
  let trbr := midpoint (box.getD 1 (0, 0)) (box.getD 2 (0, 0))
  [midpoint tlbl trbr, midpoint tltr blbr]

/-- Modelled from the claim wording of C1 (spec 4.5 item 3): a single midpoint
record computed as the midpoint of the segment joining the midpoint of the
left edge (top-left `box[0]` to bottom-left `box[3]`) and the midpoint of the
right edge (top-right `box[1]` to bottom-right `box[2]`). -/
def claimedSingleBoxMidpoint (box : List (ℤ × ℤ)) : ℤ × ℤ :=
  midpoint (midpoint (box.getD 0 (0, 0)) (box.getD 3 (0, 0)))
    (midpoint (box.getD 1 (0, 0)) (box.getD 2 (0, 0)))

/-- Flat description of what `boxMidpoint` actually computes (the amended C1):
first record is the truncating midpoint of the midpoint of the top-left to
bottom-right diagonal and the midpoint of the right edge; second record is the
truncating midpoint of the top-edge midpoint and the bottom-edge midpoint. -/
def amendedBoxMidpoints (box : List (ℤ × ℤ)) : List (ℤ × ℤ) :=
  [midpoint (midpoint (box.getD 0 (0, 0)) (box.getD 2 (0, 0)))
      (midpoint (box.getD 1 (0, 0)) (box.getD 2 (0, 0))),
    midpoint (midpoint (box.getD 0 (0, 0)) (box.getD 1 (0, 0)))
      (midpoint (box.getD 3 (0, 0)) (box.getD 2 (0, 0)))]

/-- Contours are finite polylines of integer pixel coordinates, exactly what
`cv2.findContours` with `CHAIN_APPROX_SIMPLE` yields. -/
abbrev Contour := List (ℤ × ℤ)

/-- Twice the signed polygon area by the shoelace formula over the closed
polygon through the contour points, as computed by `cv2.contourArea`. -/
def shoelace (c : Contour) : ℤ :=
  ((c.zip (c.rotate 1)).map (fun q => q.1.1 * q.2.2 - q.2.1 * q.1.2)).sum

/-- Enclosed polygon area of a contour: `cv2.contourArea` with the default
`oriented = false` returns the absolute value of the shoelace sum halved. -/
def contourArea (c : Contour) : ℚ := ((shoelace c).natAbs : ℚ) / 2

/-- Contour selection loop, `From picture.py` lines 103-117: a contour is kept
iff `cv2.contourArea(c) > minContourBar` (strict inequality, the trackbar value
`minContourBar` is a natural number in `[0, 3000]`). -/
def selectContours (cs : List Contour) (minArea : ℕ) : List Contour :=
  cs.filter (fun c => decide ((minArea : ℚ) < contourArea c))

/-- Per-channel inclusive bound test of `cv2.inRange`. -/
def inRangeChan (lo hi px : Fin 3 → ℕ) (i : Fin 3) : Bool :=
  decide (lo i ≤ px i) && decide (px i ≤ hi i)

/-- Pixel value produced by `cv2.inRange` on a 3-channel pixel: 255 when every
channel is inside its inclusive bound, 0 otherwise (`From picture.py` line 84). -/
def inRangePix (lo hi px : Fin 3 → ℕ) : ℕ :=
  if inRangeChan lo hi px 0 && inRangeChan lo hi px 1 && inRangeChan lo hi px 2 then 255 else 0

/-- Expresses `x.tdiv 2` through floor division so that `omega` can reason
about it. -/
theorem tdiv_two_eq (x : ℤ) : x.tdiv 2 = (x + if x < 0 then 1 else 0) / 2 := by
  rcases le_or_lt 0 x with h | h
  · rw [Int.tdiv_eq_ediv h (by norm_num), if_neg (not_lt.mpr h)]
    omega
  · have h1 : x.tdiv 2 = -((-x).tdiv 2) := by rw [← Int.neg_tdiv, neg_neg]
    rw [h1, Int.tdiv_eq_ediv (by omega) (by norm_num), if_pos h]
    omega

/-- Interval closure of the truncating midpoint: if both halves lie in
`[lo, hi]` then so does `halfTrunc (a + b)`. -/
theorem halfTrunc_mem (lo hi a b : ℤ) (ha1 : lo ≤ a) (ha2 : a ≤ hi)
    (hb1 : lo ≤ b) (hb2 : b ≤ hi) :
    lo ≤ halfTrunc (a + b) ∧ halfTrunc (a + b) ≤ hi := by
  rw [halfTrunc, tdiv_two_eq]
  constructor <;> (split <;> omega)

/-- Degenerate polylines have zero shoelace sum: with fewer than three points
the closed polygon encloses nothing. -/
theorem shoelace_short (c : Contour) (h : c.length < 3) : shoelace c = 0 := by
  match c, h with
  | [], _ => rfl
  | [a], _ => simp [shoelace, List.rotate]
  | [a, b], _ => simp [shoelace, List.rotate]

/-- C1 counterexample: on the canonically ordered box of the axis-aligned
rectangle with corners (0,0), (4,0), (4,2), (0,2), the code produces the two
records [(3,1), (2,1)], not the single record [(2,1)] that the claim describes
(midpoint of left-edge midpoint (0,1) and right-edge midpoint (4,1)). -/
theorem boxMidpoint_not_single_left_right :
    boxMidpoint [(0, 0), (4, 0), (4, 2), (0, 2)] ≠
      [claimedSingleBoxMidpoint [(0, 0), (4, 0), (4, 2), (0, 2)]] := by
  decide

/-- C1 amended: for every contour passing the area filter the pipeline derives
a pair of midpoint records, not a single one: the first is the truncating
midpoint of the midpoint of the tl-br diagonal and the midpoint of the right
edge (line 45 reads `box[2]`, the bottom-right corner, for the variable named
`tlbl`), and the second is the truncating midpoint of the top-edge midpoint and
the bottom-edge midpoint; each coordinate is truncated toward zero. -/
theorem boxMidpoint_pair_characterization (box : List (ℤ × ℤ)) :
    boxMidpoint box = amendedBoxMidpoints box ∧ (boxMidpoint box).length = 2 :=
  ⟨rfl, rfl⟩

/-- C4: a contour is in the selection output iff it is an input contour whose
enclosed polygon area (shoelace area of the contour points) is strictly greater
than the minimum-area parameter; consequently a contour of area exactly
`minArea` is excluded and one of area `minArea + 1` is included. -/
theorem selectContours_mem_iff_area_gt (cs : List Contour) (minArea : ℕ) (c : Contour) :
    (c ∈ selectContours cs minArea ↔ c ∈ cs ∧ (minArea : ℚ) < contourArea c) ∧
      (contourArea c = (minArea : ℚ) → c ∉ selectContours cs minArea) ∧
      (contourArea c = (minArea : ℚ) + 1 → c ∈ cs → c ∈ selectContours cs minArea) := by
  refine ⟨?_, ?_, ?_⟩
  · simp [selectContours, List.mem_filter]
  · intro hc
    simp [selectContours, List.mem_filter, hc]
  · intro hc hm
    simp only [selectContours, List.mem_filter, hc]
    refine ⟨hm, by simp⟩

/-- Witness for C4 at the boundary: with `minArea = 1`, the unit square contour
(area exactly 1) is excluded and the 2x1 rectangle contour (area 2 = 1 + 1) is
included. -/
theorem selectContours_boundary_witness :
    [((0 : ℤ), (0 : ℤ)), (1, 0), (1, 1), (0, 1)] ∉
        selectContours [[((0 : ℤ), (0 : ℤ)), (1, 0), (1, 1), (0, 1)],
          [(0, 0), (2, 0), (2, 1), (0, 1)]] 1 ∧
      [((0 : ℤ), (0 : ℤ)), (2, 0), (2, 1), (0, 1)] ∈
        selectContours [[((0 : ℤ), (0 : ℤ)), (1, 0), (1, 1), (0, 1)],
          [(0, 0), (2, 0), (2, 1), (0, 1)]] 1 := by
  constructor
  · exact (selectContours_mem_iff_area_gt _ 1 _).2.1
      (by norm_num [contourArea, shoelace, List.rotate])
  · exact (selectContours_mem_iff_area_gt _ 1 _).2.2
      (by norm_num [contourArea, shoelace, List.rotate]) (by simp)

/-- C6: the thresholder sets a pixel (value 255) iff every channel value lies
inside its inclusive bound, all three channels simultaneously; otherwise the
pixel is 0. -/
theorem inRange_iff_all_channels (lo hi px : Fin 3 → ℕ) :
    (inRangePix lo hi px = 255 ↔ ∀ i : Fin 3, lo i ≤ px i ∧ px i ≤ hi i) ∧
      (inRangePix lo hi px = 0 ↔ ¬ ∀ i : Fin 3, lo i ≤ px i ∧ px i ≤ hi i) := by
  have key : (inRangeChan lo hi px 0 && inRangeChan lo hi px 1 && inRangeChan lo hi px 2) = true ↔
      ∀ i : Fin 3, lo i ≤ px i ∧ px i ≤ hi i := by
    simp only [inRangeChan, Bool.and_eq_true, decide_eq_true_eq]
    constructor
    · rintro ⟨⟨⟨a0, b0⟩, a1, b1⟩, a2, b2⟩ i
      fin_cases i <;> exact ⟨by assumption, by assumption⟩
    · intro h
      exact ⟨⟨h 0, h 1⟩, h 2⟩
  constructor
  · rw [inRangePix, ← key]
    split <;> simp_all
  · rw [inRangePix, ← key]
    split <;> simp_all

/-- C8: every degenerate contour (fewer than 3 points, or zero enclosed area)
is excluded from the selection output, for every minimum-area setting (the
trackbar value is a natural number, hence non-negative); there is no error
path, the filter is total. -/
theorem degenerate_contours_excluded (cs : List Contour) (minArea : ℕ) (c : Contour)
    (hdeg : c.length < 3 ∨ contourArea c = 0) :
    c ∉ selectContours cs minArea := by
  have hA : contourArea c = 0 := by
    rcases hdeg with h | h
    · rw [contourArea, shoelace_short c h]
      norm_num
    · exact h
  simp only [selectContours, List.mem_filter, decide_eq_true_eq]
  rintro ⟨-, hlt⟩
  rw [hA] at hlt
  exact absurd hlt (not_lt.mpr (Nat.cast_nonneg _))

/-- Witness for C8: the two-point contour [(0,0), (5,5)] is excluded even at
the minimum-area setting 0. -/
theorem degenerate_contours_excluded_witness :
    [((0 : ℤ), (0 : ℤ)), (5, 5)] ∉ selectContours [[((0 : ℤ), (0 : ℤ)), (5, 5)]] 0 :=
  degenerate_contours_excluded _ 0 _ (Or.inl (by decide))

/-- Squared Euclidean distance between two integer points.  Sorting by it
agrees with sorting by the Euclidean distance that `scipy.spatial.distance`
computes in `order_points`, including ties. -/
def sqDist (a b : ℤ × ℤ) : ℤ := (a.1 - b.1) ^ 2 + (a.2 - b.2) ^ 2

/-- Comparison by horizontal coordinate, the key of the first `np.argsort` in
`imutils.perspective.order_points`. -/
def leX : (ℤ × ℤ) → (ℤ × ℤ) → Prop := fun a b => a.1 ≤ b.1

/-- Comparison by vertical coordinate, the key of the second `np.argsort` in
`imutils.perspective.order_points`. -/
def leY : (ℤ × ℤ) → (ℤ × ℤ) → Prop := fun a b => a.2 ≤ b.2

instance : DecidableRel leX := fun a b => inferInstanceAs (Decidable (a.1 ≤ b.1))

instance : DecidableRel leY := fun a b => inferInstanceAs (Decidable (a.2 ≤ b.2))

instance : IsTotal (ℤ × ℤ) leX := ⟨fun a b => le_total a.1 b.1⟩

instance : IsTrans (ℤ × ℤ) leX := ⟨fun _ _ _ h1 h2 => le_trans h1 h2⟩

instance : IsTotal (ℤ × ℤ) leY := ⟨fun a b => le_total a.2 b.2⟩

instance : IsTrans (ℤ × ℤ) leY := ⟨fun _ _ _ h1 h2 => le_trans h1 h2⟩

/-- Core of `imutils.perspective.order_points`, applied to the stably x-sorted
point list: the two leftmost points form the left pair sorted by y into
(top-left, bottom-left); of the two rightmost points, the one farther from the
top-left is bottom-right and the nearer is top-right (`np.argsort(D)[::-1]`).
Lists that are not 4 points long cannot arise from `cv2.boxPoints` and fall
through unchanged. -/
def orderSorted (xSorted orig : List (ℤ × ℤ)) : List (ℤ × ℤ) :=
  match (xSorted.take 2).insertionSort leY, xSorted.drop 2 with
  | [tl, bl], [p, q] =>
    if sqDist tl p ≤ sqDist tl q then [tl, p, q, bl] else [tl, q, p, bl]
  | _, _ => orig

/-- Model of `imutils.perspective.order_points` (the implementation shipped
since imutils 0.3.6, called at `From picture.py` line 111).  `np.argsort` uses
insertion sort for arrays this small, so the stable `List.insertionSort`
matches its tie behavior; float corner values are integral because the box was
cast with `dtype="int"` before the call. -/
def orderPoints (pts : List (ℤ × ℤ)) : List (ℤ × ℤ) :=
  orderSorted (pts.insertionSort leX) pts

/-- Modelled from the claim wording of C5 (spec 4.5 item 2): stably sort by
vertical position to separate the two topmost from the two bottommost points,
then sort each pair by horizontal position, returning (top-left, top-right,
bottom-right, bottom-left). -/
def claimedOrderPoints (pts : List (ℤ × ℤ)) : List (ℤ × ℤ) :=
  let ySorted := pts.insertionSort leY
  let top := (ySorted.take 2).insertionSort leX
  let bot := (ySorted.drop 2).insertionSort leX
  match top, bot with
  | [tl, tr], [bl, br] => [tl, tr, br, bl]
  | _, _ => pts

/-- Decomposition of a four-element list. -/
theorem list_length_four {α : Type} (l : List α) (h : l.length = 4) :
    ∃ x y z w, l = [x, y, z, w] := by
  rcases l with _ | ⟨x, _ | ⟨y, _ | ⟨z, _ | ⟨w, _ | ⟨v, t⟩⟩⟩⟩⟩ <;> simp_all

/-- C5 counterexample: for the 45-degree square with corners (1,0), (2,1),
(1,2), (0,1) the canonicalization output changes under a cyclic permutation of
the input corners, and on the rotated input it also differs from the
vertical-position-first ordering rule stated in the claim. -/
theorem orderPoints_not_vertical_first_not_cyclic_stable :
    orderPoints [(2, 1), (1, 2), (0, 1), (1, 0)] ≠
        orderPoints [(1, 0), (2, 1), (1, 2), (0, 1)] ∧
      orderPoints [(2, 1), (1, 2), (0, 1), (1, 0)] ≠
        claimedOrderPoints [(2, 1), (1, 2), (0, 1), (1, 0)] := by
  constructor <;> decide

/-- C5 amended: canonicalization separates the two leftmost from the two
rightmost points first (stable on ties in input order), sorts the left pair by
vertical position into (top-left, bottom-left), and orders the right pair by
descending distance from the top-left (bottom-right at least as far as
top-right); the output is a permutation of the four input corners.  Because
the split is horizontal-first and distance-based rather than
vertical-position-first, the output is not invariant under cyclic permutation
of the input corners in general. -/
theorem orderPoints_characterization (a b c d : ℤ × ℤ) :
    ∃ tl tr br bl, orderPoints [a, b, c, d] = [tl, tr, br, bl] ∧
      ([tl, tr, br, bl] : List (ℤ × ℤ)).Perm [a, b, c, d] ∧
      tl.1 ≤ tr.1 ∧ tl.1 ≤ br.1 ∧ bl.1 ≤ tr.1 ∧ bl.1 ≤ br.1 ∧
      tl.2 ≤ bl.2 ∧ sqDist tl tr ≤ sqDist tl br := by
  have hperm : (List.insertionSort leX [a, b, c, d]).Perm [a, b, c, d] :=
    List.perm_insertionSort _ _
  have hsorted : List.Sorted leX (List.insertionSort leX [a, b, c, d]) :=
    List.sorted_insertionSort _ _
  have hlen : (List.insertionSort leX [a, b, c, d]).length = 4 := by
    rw [List.length_insertionSort]
    rfl
  obtain ⟨p0, p1, p2, p3, hs⟩ := list_length_four _ hlen
  rw [hs] at hperm hsorted
  simp only [List.sorted_cons, List.mem_cons, List.mem_singleton, List.not_mem_nil, leX] at hsorted
  obtain ⟨h0, h1, -⟩ := hsorted
  have hx01 : p0.1 ≤ p1.1 := h0 p1 (by simp)
  have hx02 : p0.1 ≤ p2.1 := h0 p2 (by simp)
  have hx03 : p0.1 ≤ p3.1 := h0 p3 (by simp)
  have hx12 : p1.1 ≤ p2.1 := h1 p2 (by simp)
  have hx13 : p1.1 ≤ p3.1 := h1 p3 (by simp)
  have hor : orderPoints [a, b, c, d] = orderSorted [p0, p1, p2, p3] [a, b, c, d] := by
    rw [orderPoints, hs]
  by_cases hy : leY p0 p1
  · have hin : (([p0, p1, p2, p3] : List (ℤ × ℤ)).take 2).insertionSort leY = [p0, p1] := by
      simp [List.insertionSort, List.orderedInsert, hy]
    by_cases hd : sqDist p0 p2 ≤ sqDist p0 p3
    · refine ⟨p0, p2, p3, p1, ?_, ?_, hx02, hx03, hx12, hx13, hy, hd⟩
      · rw [hor, orderSorted, hin]
        simp [hd]
      · exact List.Perm.trans
          (List.Perm.cons p0 (@List.perm_append_comm _ [p2, p3] [p1])) hperm
    · refine ⟨p0, p3, p2, p1, ?_, ?_, hx03, hx02, hx13, hx12, hy, le_of_not_le hd⟩
      · rw [hor, orderSorted, hin]
        simp [hd]
      · exact List.Perm.trans
          (List.Perm.cons p0 (List.reverse_perm [p1, p2, p3])) hperm
  · have hy1 : p1.2 ≤ p0.2 := le_of_not_le hy
    have hin : (([p0, p1, p2, p3] : List (ℤ × ℤ)).take 2).insertionSort leY = [p1, p0] := by
      simp [List.insertionSort, List.orderedInsert, hy]
    by_cases hd : sqDist p1 p2 ≤ sqDist p1 p3
    · refine ⟨p1, p2, p3, p0, ?_, ?_, hx12, hx13, hx02, hx03, hy1, hd⟩
      · rw [hor, orderSorted, hin]
        simp [hd]
      · exact List.Perm.trans (@List.perm_append_comm _ [p1, p2, p3] [p0]) hperm
    · refine ⟨p1, p3, p2, p0, ?_, ?_, hx13, hx12, hx03, hx02, hy1, le_of_not_le hd⟩
      · rw [hor, orderSorted, hin]
        simp [hd]
      · refine List.Perm.trans ?_ hperm
        refine List.Perm.trans (@List.perm_append_comm _ [p1, p3, p2] [p0]) ?_
        exact List.Perm.cons p0 (List.Perm.cons p1 (List.Perm.swap p2 p3 []))

/-- Membership of a rational point in the convex hull of four points: the
point is a convex combination of the corners. -/
def inHull4 (p a b c d : ℚ × ℚ) : Prop :=
  ∃ w0 w1 w2 w3 : ℚ, 0 ≤ w0 ∧ 0 ≤ w1 ∧ 0 ≤ w2 ∧ 0 ≤ w3 ∧
    w0 + w1 + w2 + w3 = 1 ∧
    p.1 = w0 * a.1 + w1 * b.1 + w2 * c.1 + w3 * d.1 ∧
    p.2 = w0 * a.2 + w1 * b.2 + w2 * c.2 + w3 * d.2

/-- C7 counterexample: the unit-diamond box with corners (10,0), (11,1),
(10,2), (9,1) is already in canonical (tl, tr, br, bl) order (first conjunct),
yet the second midpoint record the code computes for it, (9,0), lies outside
the convex hull of the four corners: every hull point satisfies
x + y at least 10, while 9 + 0 = 9. -/
theorem boxMidpoint_outside_hull :
    orderPoints [(10, 0), (11, 1), (10, 2), (9, 1)] = [(10, 0), (11, 1), (10, 2), (9, 1)] ∧
      boxMidpoint [(10, 0), (11, 1), (10, 2), (9, 1)] = [(10, 1), (9, 0)] ∧
      ¬ inHull4 (9, 0) (10, 0) (11, 1) (10, 2) (9, 1) := by
  refine ⟨by decide, by decide, ?_⟩
  rintro ⟨w0, w1, w2, w3, h0, h1, h2, h3, hsum, hx, hy⟩
  norm_num at hx hy
  linarith

/-- C7 amended: the midpoint computation is a pure function of the box (hence
deterministic), and each of the computed midpoint records stays inside the
axis-aligned bounding rectangle of the four corners (each coordinate between
the corners' minimum and maximum); integer truncation can nevertheless push a
record outside the convex hull of the corners themselves. -/
theorem boxMidpoint_within_corner_bounds (a b c d q : ℤ × ℤ)
    (hq : q ∈ boxMidpoint [a, b, c, d]) :
    min (min a.1 b.1) (min c.1 d.1) ≤ q.1 ∧ q.1 ≤ max (max a.1 b.1) (max c.1 d.1) ∧
      min (min a.2 b.2) (min c.2 d.2) ≤ q.2 ∧ q.2 ≤ max (max a.2 b.2) (max c.2 d.2) := by
  simp only [boxMidpoint, List.getD_cons_zero, List.getD_cons_succ,
    List.mem_cons, List.not_mem_nil, or_false] at hq
  rcases hq with hq | hq <;> subst hq <;>
    simp only [midpoint, halfTrunc, tdiv_two_eq] <;>
    refine ⟨?_, ?_, ?_, ?_⟩ <;> (split_ifs <;> omega)

/-- Witness for C7 amended: the first record (10,1) of the diamond box is a
member of the computed midpoint list and satisfies the bounding-rectangle
inequalities. -/
theorem boxMidpoint_within_corner_bounds_witness :
    ((10 : ℤ), (1 : ℤ)) ∈ boxMidpoint [(10, 0), (11, 1), (10, 2), (9, 1)] ∧
      min (min (10 : ℤ) 11) (min 10 9) ≤ 10 ∧ (10 : ℤ) ≤ max (max 10 11) (max 10 9) ∧
      min (min (0 : ℤ) 1) (min 2 1) ≤ 1 ∧ (1 : ℤ) ≤ max (max 0 1) (max 2 1) :=
  ⟨by decide, boxMidpoint_within_corner_bounds (10, 0) (11, 1) (10, 2) (9, 1) (10, 1) (by decide)⟩

/-- Maximum of the three channel values: the value channel V of the OpenCV
`COLOR_BGR2HSV` conversion of an 8-bit pixel. -/
def v3 (b g r : ℕ) : ℕ := max b (max g r)

/-- Minimum of the three channel values, used for the chroma range. -/
def m3 (b g r : ℕ) : ℕ := min b (min g r)

/-- Fixed-point hue division table of OpenCV (`hdiv_table180` with
`hsv_shift = 12`): entry 0 is 0 and entry `i` is `cvRound((180 << 12)/(6 i))`.
For `i` in `[1, 255]` the quotient `122880 / i` is never exactly half-way
between integers, so rounding to nearest equals `(245760 + i) / (2 i)` in
integer division. -/
def hdivTable (i : ℕ) : ℕ := if i = 0 then 0 else (245760 + i) / (2 * i)

/-- Saturation division table of OpenCV (`sdiv_table`): entry 0 is 0 and entry
`i` is `cvRound((255 << 12)/i) = (2088960 + i) / (2 i)` (again no half-way
ties for `i` in `[1, 255]`). -/
def sdivTable (i : ℕ) : ℕ := if i = 0 then 0 else (2088960 + i) / (2 * i)

/-- Pre-scale hue numerator of the OpenCV 8-bit BGR to HSV kernel:
`(vr and (g - b)) + (not vr and ((vg and (b - r + 2 diff)) + (not vg and
(r - g + 4 diff))))` with the branch masks `vr = (v == r)`, `vg = (v == g)`. -/
def hueRaw (b g r : ℕ) : ℤ :=
  if v3 b g r = r then (g : ℤ) - (b : ℤ)
  else if v3 b g r = g then (b : ℤ) - (r : ℤ) + 2 * ((v3 b g r : ℤ) - (m3 b g r : ℤ))
  else (r : ℤ) - (g : ℤ) + 4 * ((v3 b g r : ℤ) - (m3 b g r : ℤ))

/-- Scaled hue before the negative-wrap adjustment:
`(h * hdiv_table[diff] + (1 << (hsv_shift - 1))) >> hsv_shift`, where the
arithmetic right shift of a signed value is floor division. -/
def hueScaled (b g r : ℕ) : ℤ :=
  (hueRaw b g r * (hdivTable (v3 b g r - m3 b g r) : ℤ) + 2048) / 4096

/-- Hue channel of the OpenCV 8-bit BGR to HSV conversion:
`h += h < 0 ? 180 : 0` after the fixed-point scaling. -/
def hueOf (b g r : ℕ) : ℤ :=
  if hueScaled b g r < 0 then hueScaled b g r + 180 else hueScaled b g r

/-- Saturation channel of the OpenCV 8-bit BGR to HSV conversion:
`s = (diff * sdiv_table[v] + (1 << (hsv_shift - 1))) >> hsv_shift`. -/
def satOf (b g r : ℕ) : ℕ :=
  ((v3 b g r - m3 b g r) * sdivTable (v3 b g r) + 2048) / 4096

/-- Full HSV pixel of `cv2.cvtColor(frame, cv2.COLOR_BGR2HSV)` on an 8-bit BGR
pixel (`From picture.py` line 68); the hue is non-negative (proved below), so
the saturating byte cast is `Int.toNat`. -/
def cvtPixBGR2HSV (p : ℕ × ℕ × ℕ) : Fin 3 → ℕ :=
  ![(hueOf p.1 p.2.1 p.2.2).toNat, satOf p.1 p.2.1 p.2.2, v3 p.1 p.2.1 p.2.2]

/-- Images are total maps from integer pixel coordinates to BGR byte triples;
only values inside the frame rectangle are ever read by the operations. -/
abbrev Img := ℤ × ℤ → ℕ × ℕ × ℕ

/-- Binary masks, 255 for set pixels and 0 for unset ones. -/
abbrev Mask := ℤ × ℤ → ℕ

/-- HSV image produced by the color-space conversion. -/
abbrev HSVImg := ℤ × ℤ → Fin 3 → ℕ

/-- Pointwise BGR to HSV conversion of a frame. -/
def cvtColorBGR2HSV (img : Img) : HSVImg := fun q => cvtPixBGR2HSV (img q)

/-- Pointwise `cv2.inRange` thresholding of an HSV image. -/
def inRange (hsv : HSVImg) (lo hi : Fin 3 → ℕ) : Mask := fun q => inRangePix lo hi (hsv q)

/-- Masked composite `cv2.bitwise_and(frame, frame, mask=mask)`
(`From picture.py` line 92): the pixel where the mask is non-zero, black
elsewhere. -/
def bitwiseAndMasked (img : Img) (mk : Mask) : Img :=
  fun q => if mk q = 0 then (0, 0, 0) else img q

/-- Reads a channel value with the constant-border convention of the OpenCV
morphology kernels: out-of-frame pixels contribute the neutral element
(255 for erosion, 0 for dilation). -/
def readOr (dflt H W : ℕ) (ch : ℤ × ℤ → ℕ) (q : ℤ × ℤ) : ℕ :=
  if 0 ≤ q.1 ∧ q.1 < (H : ℤ) ∧ 0 ≤ q.2 ∧ q.2 < (W : ℤ) then ch q else dflt

/-- Offsets of the 3x3 elliptical structuring element
`cv2.getStructuringElement(cv2.MORPH_ELLIPSE, (3, 3))`, which is the 3x3
cross. -/
def crossOffsets : List (ℤ × ℤ) := [(0, 0), (0, 1), (0, -1), (1, 0), (-1, 0)]

/-- Grayscale erosion with the 3x3 cross on an H x W channel. -/
def erodePix (H W : ℕ) (ch : ℤ × ℤ → ℕ) (q : ℤ × ℤ) : ℕ :=
  crossOffsets.foldl (fun acc d => min acc (readOr 255 H W ch (q.1 + d.1, q.2 + d.2))) 255

/-- Grayscale dilation with the 3x3 cross on an H x W channel. -/
def dilatePix (H W : ℕ) (ch : ℤ × ℤ → ℕ) (q : ℤ × ℤ) : ℕ :=
  crossOffsets.foldl (fun acc d => max acc (readOr 0 H W ch (q.1 + d.1, q.2 + d.2))) 0

/-- Applies a channel transformer to each of the three channels of a color
image, the way OpenCV morphology acts channel-wise on multi-channel images. -/
def mapCh (f : (ℤ × ℤ → ℕ) → ℤ × ℤ → ℕ) (img : Img) : Img :=
  fun q => (f (fun y => (img y).1) q, f (fun y => (img y).2.1) q, f (fun y => (img y).2.2) q)

/-- Channel-wise erosion of a color image. -/
def erodeImg (H W : ℕ) : Img → Img := mapCh (erodePix H W)

/-- Channel-wise dilation of a color image. -/
def dilateImg (H W : ℕ) : Img → Img := mapCh (dilatePix H W)

/-- Morphological opening, `cv2.morphologyEx(img, cv2.MORPH_OPEN, kernel)`:
erosion followed by dilation (`From picture.py` lines 95-96; the source
discards the returned image). -/
def morphologyExOpen (H W : ℕ) (img : Img) : Img := dilateImg H W (erodeImg H W img)

/-- Morphological closing with `iterations = n`,
`cv2.morphologyEx(img, cv2.MORPH_CLOSE, kernel, iterations=n)`: n dilations
followed by n erosions (`From picture.py` lines 99-100; the source discards
the returned image). -/
def morphologyExClose (H W n : ℕ) (img : Img) : Img :=
  (erodeImg H W)^[n] ((dilateImg H W)^[n] img)

/-- Trackbar parameter snapshot read at the start of an iteration
(`From picture.py` lines 71-77): the six HSV bounds and the minimum contour
area, all natural numbers. -/
structure Params where
  lowH : ℕ
  highH : ℕ
  lowS : ℕ
  highS : ℕ
  lowV : ℕ
  highV : ℕ
  minArea : ℕ

/-- Everything one loop iteration computes and hands to the display sink for a
captured frame. -/
structure FrameResult where
  mask : Mask
  contours : List Contour
  res : Img
  selected : List Contour
  mids : List (List (ℤ × ℤ))
  resShown : Img
  frameShown : Img

/-- Per-frame pipeline, `From picture.py` lines 68-128, for one captured frame
and one parameter snapshot.  `findContours` stands for
`cv2.findContours(mask, RETR_EXTERNAL, CHAIN_APPROX_SIMPLE)`, `rectOf` for
`np.array(cv2.boxPoints(cv2.minAreaRect(c)), dtype="int")`, and `draw` for
`cv2.drawContours` with the fixed color and thickness; they are opaque
deterministic collaborators.  The two `cv2.morphologyEx` calls of lines 95-100
return fresh images that the source never assigns and never passes a
destination to, so they leave `res` unchanged and contribute nothing here. -/
def processFrame (findContours : Mask → List Contour) (rectOf : Contour → List (ℤ × ℤ))
    (draw : Img → List Contour → Img) (frame : Img) (p : Params) : FrameResult :=
  let hsv := cvtColorBGR2HSV frame
  let lowerHSV : Fin 3 → ℕ := ![p.lowH, p.lowS, p.lowV]
  let upperHSV : Fin 3 → ℕ := ![p.highH, p.highS, p.highV]
  let mask := inRange hsv lowerHSV upperHSV
  let contours := findContours mask
  let res := bitwiseAndMasked frame mask
  let selected := selectContours contours p.minArea
  let mids := selected.map (fun c => boxMidpoint (orderPoints (rectOf c)))
  ⟨mask, contours, res, selected, mids, draw res selected, draw frame selected⟩

/-- Capture loop, `From picture.py` lines 61-133.  Each iteration consumes one
element of the input list: the optional captured frame (`ret, frame =
cap.read()`; `none` models `ret == False`), the parameter snapshot the
trackbars hold during that iteration, and the key `cv2.waitKey` reports.  A
missing frame skips the processing block; the loop stops only when the key is
27 (escape). -/
def runLoop (fc : Mask → List Contour) (rectOf : Contour → List (ℤ × ℤ))
    (draw : Img → List Contour → Img) : List (Option Img × Params × ℕ) → List FrameResult
  | [] => []
  | (mf, p, k) :: rest =>
    let outs := match mf with
      | some f => [processFrame fc rectOf draw f p]
      | none => []
    if k = 27 then outs else outs ++ runLoop fc rectOf draw rest

/-- Contour extractor stub returning no contours, used by witnesses. -/
def trivialFindContours : Mask → List Contour := fun _ => []

/-- Box stub used by witnesses. -/
def trivialRectOf : Contour → List (ℤ × ℤ) := fun _ => []

/-- Annotation stub leaving the image unchanged, used by witnesses. -/
def trivialDraw : Img → List Contour → Img := fun img _ => img

/-- All-black frame used by witnesses. -/
def blackFrame : Img := fun _ => (0, 0, 0)

/-- Frame that is black except for one bright gray pixel at (1, 1): a single
speckle that morphological opening removes. -/
def speckleFrame : Img := fun q => if q = (1, 1) then (200, 200, 200) else (0, 0, 0)

/-- Parameter snapshot selecting bright pixels: value channel in [100, 255],
hue and saturation unconstrained, minimum contour area 10 (the trackbar
default). -/
def valueParams : Params := ⟨0, 255, 0, 255, 100, 255, 10⟩

/-- Parameter snapshot whose lower hue bound 200 exceeds every reachable hue
value. -/
def highLowHueParams : Params := ⟨200, 255, 0, 255, 0, 255, 10⟩

/-- Key division-table bound: `2 i * hdivTable i` never exceeds `245760 + i`. -/
theorem hdivTable_mul_le (i : ℕ) : 2 * i * hdivTable i ≤ 245760 + i := by
  rw [hdivTable]
  split
  · simp
  · calc 2 * i * ((245760 + i) / (2 * i)) = (245760 + i) / (2 * i) * (2 * i) := by ring
      _ ≤ 245760 + i := Nat.div_mul_le_self _ _

/-- The scaled hue of an 8-bit pixel lies in [-30, 150] before the
negative-wrap adjustment. -/
theorem hueScaled_bounds (b g r : ℕ) (hb : b ≤ 255) (hg : g ≤ 255) (hr : r ≤ 255) :
    -30 ≤ hueScaled b g r ∧ hueScaled b g r ≤ 150 := by
  have hdle : v3 b g r - m3 b g r ≤ 255 := by
    simp only [v3, m3]
    omega
  have hraw1 : -(((v3 b g r - m3 b g r : ℕ) : ℤ)) ≤ hueRaw b g r := by
    simp only [hueRaw, v3, m3]
    split_ifs <;> omega
  have hraw2 : hueRaw b g r ≤ 5 * ((v3 b g r - m3 b g r : ℕ) : ℤ) := by
    simp only [hueRaw, v3, m3]
    split_ifs <;> omega
  have hnn : (0 : ℤ) ≤ (hdivTable (v3 b g r - m3 b g r) : ℤ) := Int.natCast_nonneg _
  have hq : 2 * ((v3 b g r - m3 b g r : ℕ) : ℤ) * (hdivTable (v3 b g r - m3 b g r) : ℤ)
      ≤ 245760 + ((v3 b g r - m3 b g r : ℕ) : ℤ) := by
    exact_mod_cast hdivTable_mul_le (v3 b g r - m3 b g r)
  have hq2 : 2 * (((v3 b g r - m3 b g r : ℕ) : ℤ) * (hdivTable (v3 b g r - m3 b g r) : ℤ))
      ≤ 245760 + ((v3 b g r - m3 b g r : ℕ) : ℤ) := by
    linarith
  have hm1 : hueRaw b g r * (hdivTable (v3 b g r - m3 b g r) : ℤ)
      ≤ 5 * (((v3 b g r - m3 b g r : ℕ) : ℤ) * (hdivTable (v3 b g r - m3 b g r) : ℤ)) := by
    have h := mul_le_mul_of_nonneg_right hraw2 hnn
    linarith
  have hm2 : -((((v3 b g r - m3 b g r : ℕ) : ℤ)) * (hdivTable (v3 b g r - m3 b g r) : ℤ))
      ≤ hueRaw b g r * (hdivTable (v3 b g r - m3 b g r) : ℤ) := by
    have h := mul_le_mul_of_nonneg_right hraw1 hnn
    linarith
  constructor <;> (simp only [hueScaled]; omega)

/-- The hue channel of the 8-bit BGR to HSV conversion lies in [0, 179]. -/
theorem hueOf_bounds (b g r : ℕ) (hb : b ≤ 255) (hg : g ≤ 255) (hr : r ≤ 255) :
    0 ≤ hueOf b g r ∧ hueOf b g r ≤ 179 := by
  have h := hueScaled_bounds b g r hb hg hr
  rw [hueOf]
  split <;> omega

/-- C10: for byte-valued pixels the conversion produces hue values only in
[0, 179] even though the hue trackbars range over [0, 255]; consequently, for
every byte-valued frame, a lower hue bound of at least 180 makes every mask
pixel 0, and therefore (for any contour extractor that finds no contours in an
all-zero mask) the selection and midpoint outputs are empty. -/
theorem hue_le_179_and_high_low_hue_empty :
    (∀ b g r : ℕ, b ≤ 255 → g ≤ 255 → r ≤ 255 → 0 ≤ hueOf b g r ∧ hueOf b g r ≤ 179) ∧
      ∀ (fc : Mask → List Contour) (rectOf : Contour → List (ℤ × ℤ))
        (draw : Img → List Contour → Img) (frame : Img) (p : Params),
        (∀ q, (frame q).1 ≤ 255 ∧ (frame q).2.1 ≤ 255 ∧ (frame q).2.2 ≤ 255) →
        180 ≤ p.lowH →
        (∀ mk : Mask, (∀ q, mk q = 0) → fc mk = []) →
        (∀ q, (processFrame fc rectOf draw frame p).mask q = 0) ∧
          (processFrame fc rectOf draw frame p).selected = [] ∧
          (processFrame fc rectOf draw frame p).mids = [] := by
  refine ⟨hueOf_bounds, ?_⟩
  intro fc rectOf draw frame p hframe hlow hfc
  have hmask : ∀ q, inRange (cvtColorBGR2HSV frame) ![p.lowH, p.lowS, p.lowV]
      ![p.highH, p.highS, p.highV] q = 0 := by
    intro q
    obtain ⟨h1, h2, h3⟩ := hframe q
    have hhue := hueOf_bounds (frame q).1 (frame q).2.1 (frame q).2.2 h1 h2 h3
    have hfail : ¬ (p.lowH ≤ (hueOf (frame q).1 (frame q).2.1 (frame q).2.2).toNat) := by
      omega
    simp [inRange, cvtColorBGR2HSV, cvtPixBGR2HSV, inRangePix, inRangeChan, hfail]
  have hc : (processFrame fc rectOf draw frame p).contours = [] := hfc _ hmask
  refine ⟨hmask, ?_, ?_⟩
  · show selectContours (fc _) p.minArea = []
    rw [show fc (inRange (cvtColorBGR2HSV frame) ![p.lowH, p.lowS, p.lowV]
      ![p.highH, p.highS, p.highV]) = [] from hfc _ hmask]
    rfl
  · show (selectContours (fc _) p.minArea).map _ = []
    rw [show fc (inRange (cvtColorBGR2HSV frame) ![p.lowH, p.lowS, p.lowV]
      ![p.highH, p.highS, p.highV]) = [] from hfc _ hmask]
    rfl

/-- Witness for C10: a saturated red pixel has hue in [0, 179], and with the
lower hue bound 200 the pipeline on the all-black frame yields an all-zero
mask and no detections. -/
theorem hue_le_179_and_high_low_hue_empty_witness :
    (0 ≤ hueOf 10 20 255 ∧ hueOf 10 20 255 ≤ 179) ∧
      ((∀ q, (processFrame trivialFindContours trivialRectOf trivialDraw blackFrame
          highLowHueParams).mask q = 0) ∧
        (processFrame trivialFindContours trivialRectOf trivialDraw blackFrame
          highLowHueParams).selected = [] ∧
        (processFrame trivialFindContours trivialRectOf trivialDraw blackFrame
          highLowHueParams).mids = []) :=
  ⟨hue_le_179_and_high_low_hue_empty.1 10 20 255 (by decide) (by decide) (by decide),
    hue_le_179_and_high_low_hue_empty.2 trivialFindContours trivialRectOf trivialDraw
      blackFrame highLowHueParams
      (fun _ => ⟨Nat.zero_le _, Nat.zero_le _, Nat.zero_le _⟩)
      (by decide)
      (fun _ _ => rfl)⟩

/-- C9: the capture loop is stateless across frames: as long as escape is not
pressed, the result list is the pointwise image of the input list under the
pure function `processFrame`, so any frame's mask, contours, composite and
detection outputs are determined by that frame and the parameter snapshot of
its own iteration alone, independent of every previously processed frame; the
snapshot read at the start of the iteration is the one applied throughout
it. -/
theorem runLoop_stateless (fc : Mask → List Contour) (rectOf : Contour → List (ℤ × ℤ))
    (draw : Img → List Contour → Img) (inputs : List (Option Img × Params × ℕ))
    (hk : ∀ x ∈ inputs, x.2.2 ≠ 27) :
    runLoop fc rectOf draw inputs =
      inputs.filterMap (fun it => it.1.map (fun f => processFrame fc rectOf draw f it.2.1)) := by
  induction inputs with
  | nil => rfl
  | cons it rest ih =>
    obtain ⟨mf, p, k⟩ := it
    have hk27 : k ≠ 27 := hk _ (List.mem_cons_self _ _)
    have ih2 := ih (fun x hx => hk x (List.mem_cons_of_mem _ hx))
    cases mf <;> simp [runLoop, hk27, ih2, List.filterMap_cons]

/-- Witness for C9 on a one-iteration run with no escape key: the loop output
is exactly the per-frame result of the pure pipeline. -/
theorem runLoop_stateless_witness :
    runLoop trivialFindContours trivialRectOf trivialDraw [(some blackFrame, valueParams, 0)] =
      [processFrame trivialFindContours trivialRectOf trivialDraw blackFrame valueParams] := by
  have hk : ∀ x ∈ [((some blackFrame : Option Img), valueParams, (0 : ℕ))], x.2.2 ≠ 27 := by
    intro x hx
    rw [List.mem_singleton] at hx
    subst hx
    decide
  simpa using runLoop_stateless trivialFindContours trivialRectOf trivialDraw _ hk

/-- C3 counterexample: after an iteration whose frame read yields no frame
(with no escape key pressed), the loop keeps running and processes the frame
supplied by the following read, so source exhaustion does not terminate the
iteration loop and further frames are processed. -/
theorem loop_processes_after_empty_read :
    runLoop trivialFindContours trivialRectOf trivialDraw
        [(none, valueParams, 0), (some blackFrame, valueParams, 0)] =
      [processFrame trivialFindContours trivialRectOf trivialDraw blackFrame valueParams] ∧
      runLoop trivialFindContours trivialRectOf trivialDraw
        [(none, valueParams, 0), (some blackFrame, valueParams, 0)] ≠ [] := by
  constructor
  · rfl
  · intro h
    simp [runLoop] at h

/-- C3 amended: an iteration whose frame read yields no frame is skipped
silently, with no error result of any kind; the loop then continues with the
remaining iterations, and it terminates only when the key of the current
iteration is 27 (the escape key).  End-of-stream itself never terminates the
loop. -/
theorem empty_read_skips_iteration (fc : Mask → List Contour)
    (rectOf : Contour → List (ℤ × ℤ)) (draw : Img → List Contour → Img)
    (p : Params) (k : ℕ) (rest : List (Option Img × Params × ℕ)) :
    runLoop fc rectOf draw ((none, p, k) :: rest) =
      if k = 27 then [] else runLoop fc rectOf draw rest := rfl

/-- Channel that is zero at every in-frame pixel. -/
def zeroInside (H W : ℕ) (ch : ℤ × ℤ → ℕ) : Prop :=
  ∀ q : ℤ × ℤ, 0 ≤ q.1 → q.1 < (H : ℤ) → 0 ≤ q.2 → q.2 < (W : ℤ) → ch q = 0

/-- Color image that is black at every in-frame pixel. -/
def blackInside (H W : ℕ) (img : Img) : Prop :=
  ∀ q : ℤ × ℤ, 0 ≤ q.1 → q.1 < (H : ℤ) → 0 ≤ q.2 → q.2 < (W : ℤ) → img q = (0, 0, 0)

/-- Dilation of an in-frame-zero channel is zero everywhere: every read either
falls inside the frame (value 0) or uses the dilation border value 0. -/
theorem dilatePix_of_zeroInside (H W : ℕ) (ch : ℤ × ℤ → ℕ) (h : zeroInside H W ch)
    (q : ℤ × ℤ) : dilatePix H W ch q = 0 := by
  have t : ∀ y : ℤ × ℤ, readOr 0 H W ch y = 0 := by
    intro y
    rw [readOr]
    split
    · next hc => exact h y hc.1 hc.2.1 hc.2.2.1 hc.2.2.2
    · rfl
  simp [dilatePix, crossOffsets, t]

/-- Erosion of an in-frame-zero channel is zero at in-frame pixels: the anchor
read contributes 0 to the minimum. -/
theorem erodePix_of_zeroInside (H W : ℕ) (ch : ℤ × ℤ → ℕ) (h : zeroInside H W ch)
    (q : ℤ × ℤ) (h1 : 0 ≤ q.1) (h2 : q.1 < (H : ℤ)) (h3 : 0 ≤ q.2) (h4 : q.2 < (W : ℤ)) :
    erodePix H W ch q = 0 := by
  have hq0 : readOr 255 H W ch q = 0 := by
    rw [readOr, if_pos ⟨h1, h2, h3, h4⟩]
    exact h q h1 h2 h3 h4
  simp [erodePix, crossOffsets, hq0]

/-- First channel of an in-frame-black image is in-frame zero. -/
theorem zeroInside_ch1 (H W : ℕ) (img : Img) (h : blackInside H W img) :
    zeroInside H W (fun y => (img y).1) := by
  intro q h1 h2 h3 h4
  show (img q).1 = 0
  rw [h q h1 h2 h3 h4]

/-- Second channel of an in-frame-black image is in-frame zero. -/
theorem zeroInside_ch2 (H W : ℕ) (img : Img) (h : blackInside H W img) :
    zeroInside H W (fun y => (img y).2.1) := by
  intro q h1 h2 h3 h4
  show (img q).2.1 = 0
  rw [h q h1 h2 h3 h4]

/-- Third channel of an in-frame-black image is in-frame zero. -/
theorem zeroInside_ch3 (H W : ℕ) (img : Img) (h : blackInside H W img) :
    zeroInside H W (fun y => (img y).2.2) := by
  intro q h1 h2 h3 h4
  show (img q).2.2 = 0
  rw [h q h1 h2 h3 h4]

/-- Dilation preserves in-frame blackness. -/
theorem dilateImg_blackInside (H W : ℕ) (img : Img) (h : blackInside H W img) :
    blackInside H W (dilateImg H W img) := by
  intro q h1 h2 h3 h4
  show (dilatePix H W _ q, dilatePix H W _ q, dilatePix H W _ q) = ((0 : ℕ), (0 : ℕ), (0 : ℕ))
  rw [dilatePix_of_zeroInside H W _ (zeroInside_ch1 H W img h) q,
    dilatePix_of_zeroInside H W _ (zeroInside_ch2 H W img h) q,
    dilatePix_of_zeroInside H W _ (zeroInside_ch3 H W img h) q]

/-- Erosion preserves in-frame blackness. -/
theorem erodeImg_blackInside (H W : ℕ) (img : Img) (h : blackInside H W img) :
    blackInside H W (erodeImg H W img) := by
  intro q h1 h2 h3 h4
  show (erodePix H W _ q, erodePix H W _ q, erodePix H W _ q) = ((0 : ℕ), (0 : ℕ), (0 : ℕ))
  rw [erodePix_of_zeroInside H W _ (zeroInside_ch1 H W img h) q h1 h2 h3 h4,
    erodePix_of_zeroInside H W _ (zeroInside_ch2 H W img h) q h1 h2 h3 h4,
    erodePix_of_zeroInside H W _ (zeroInside_ch3 H W img h) q h1 h2 h3 h4]

/-- Iterating an in-frame-blackness-preserving transform preserves in-frame
blackness. -/
theorem iterate_blackInside (H W : ℕ) (f : Img → Img)
    (hf : ∀ i, blackInside H W i → blackInside H W (f i)) :
    ∀ (n : ℕ) (i : Img), blackInside H W i → blackInside H W (f^[n] i) := by
  intro n
  induction n with
  | zero =>
    intro i h
    simpa using h
  | succ n ih =>
    intro i h
    rw [Function.iterate_succ_apply]
    exact ih _ (hf _ h)

/-- C2 (code bug): on the 3x3 frame whose only bright pixel is the speckle at
(1, 1), the composite `res` that the pipeline hands to the display still holds
the speckle value (200, 200, 200) at (1, 1), while the opening (and the
opening followed by the triple closing) that lines 95-100 compute would have
erased it to (0, 0, 0) there: the source discards the images the two
`cv2.morphologyEx` calls return (no assignment, no destination argument), so
the displayed composite never reflects the cleaned artifact. -/
theorem morphology_result_discarded :
    (processFrame trivialFindContours trivialRectOf trivialDraw speckleFrame
        valueParams).res (1, 1) = (200, 200, 200) ∧
      morphologyExOpen 3 3 ((processFrame trivialFindContours trivialRectOf trivialDraw
        speckleFrame valueParams).res) (1, 1) = (0, 0, 0) ∧
      morphologyExClose 3 3 3 (morphologyExOpen 3 3 ((processFrame trivialFindContours
        trivialRectOf trivialDraw speckleFrame valueParams).res)) (1, 1) = (0, 0, 0) := by
  have heroded : blackInside 3 3 (erodeImg 3 3 ((processFrame trivialFindContours
      trivialRectOf trivialDraw speckleFrame valueParams).res)) := by
    intro q h1 h2 h3 h4
    have hx : q.1 = 0 ∨ q.1 = 1 ∨ q.1 = 2 := by omega
    have hy : q.2 = 0 ∨ q.2 = 1 ∨ q.2 = 2 := by omega
    rcases hx with hx | hx | hx <;> rcases hy with hy | hy | hy <;>
      rw [show q = (q.1, q.2) from rfl, hx, hy] <;> decide
  have hopen : blackInside 3 3 (morphologyExOpen 3 3 ((processFrame trivialFindContours
      trivialRectOf trivialDraw speckleFrame valueParams).res)) :=
    dilateImg_blackInside 3 3 _ heroded
  have hclosed : blackInside 3 3 (morphologyExClose 3 3 3 (morphologyExOpen 3 3
      ((processFrame trivialFindContours trivialRectOf trivialDraw speckleFrame
        valueParams).res))) :=
    iterate_blackInside 3 3 (erodeImg 3 3) (erodeImg_blackInside 3 3) 3 _
      (iterate_blackInside 3 3 (dilateImg 3 3) (dilateImg_blackInside 3 3) 3 _ hopen)
  refine ⟨by decide, ?_, ?_⟩
  · exact hopen (1, 1) (by decide) (by decide) (by decide) (by decide)
  · exact hclosed (1, 1) (by decide) (by decide) (by decide) (by decide)

end ColorDetect
